import Mathlib

/-!
# Verification of the fastapi-topaz authorization core

Shallow embedding of the core components of the fastapi-topaz repository:
the policy-path resolver, the decision cache, the stale-cache side table,
the circuit breaker state machine, the connection pool, the
`check_decision` orchestrator, the hierarchy checker and the global
middleware.  Times (Python `time.monotonic()` floats) are modelled as
rationals; async methods are modelled as pure state-passing functions;
Python dicts are modelled as insertion-ordered association lists.
All definitions use structural recursion so that concrete instances
evaluate inside the kernel.
-/

namespace FastapiTopaz

/-! ## Policy-path resolver (`dependencies.py`, `_policy_path_heuristic` /
`_resolve_policy_path`) -/

/-- Python `s.strip("/")`: remove all leading and trailing slash characters. -/
def stripSlashes (cs : List Char) : List Char :=
  ((cs.dropWhile (fun c => c == '/')).reverse.dropWhile (fun c => c == '/')).reverse

/-- Python `s.split(sep)` for a one-character separator: always returns at
least one (possibly empty) piece, empty pieces between consecutive
separators included. -/
def splitOnChar (sep : Char) : List Char → List (List Char)
  | [] => [[]]
  | c :: rest =>
    let r := splitOnChar sep rest
    if c == sep then [] :: r
    else
      match r with
      | [] => [[c]]
      | s :: ss => (c :: s) :: ss

/-- One segment of the heuristic: a `{name}` placeholder becomes `__name`,
anything else is kept literally (`dependencies.py` lines 45-51).  The
source tests `startswith("{") and endswith("}")` on the segment. -/
def segmentPart (seg : List Char) : List Char :=
  match seg with
  | '{' :: rest =>
    if rest.getLast? = some '}' then '_' :: '_' :: rest.dropLast
    else '{' :: rest
  | _ => seg

/-- Join pieces with a dot separator (Python `".".join(parts)`). -/
def joinDots : List (List Char) → List Char
  | [] => []
  | [p] => p
  | p :: ps => p ++ '.' :: joinDots ps

/-- `_policy_path_heuristic` from `dependencies.py`: convert a URL path to a
policy-path suffix.  Empty segments (from consecutive slashes) are skipped
by the `if not segment: continue` line of the source. -/
def policyPathHeuristic (path : String) : String :=
  if path = "" || path = "/" then ""
  else
    let segments := splitOnChar '/' (stripSlashes path.data)
    let parts := (segments.filter (fun s => s ≠ [])).map segmentPart
    if parts = [] then ""
    else String.mk ('.' :: joinDots parts)

/-- `_resolve_policy_path` from `dependencies.py`:
`root + "." + method + heuristic(path)`. -/
def resolvePolicyPath (root method path : String) : String :=
  root ++ "." ++ method ++ policyPathHeuristic path

/-- The policy-path algorithm exactly as the specification words it: after
stripping slashes and splitting on `/`, EVERY segment is emitted (`__name`
for placeholders, the literal segment otherwise, empty segments included),
joined with `.` and prefixed with a single `.` when the join is non-empty.
Used only to compare the spec text against the source definition. -/
def specResolvePolicyPath (root method path : String) : String :=
  let suffix :=
    if path = "" || path = "/" then ""
    else
      let segments := splitOnChar '/' (stripSlashes path.data)
      let joined := joinDots (segments.map segmentPart)
      if joined = [] then "" else String.mk ('.' :: joined)
  root ++ "." ++ method ++ suffix

/-- The specification algorithm amended minimally: identical to
`specResolvePolicyPath` except that empty segments produced by the split
(consecutive slashes) are skipped, as the source does. -/
def amendedSpecResolvePolicyPath (root method path : String) : String :=
  let suffix :=
    if path = "" || path = "/" then ""
    else
      let segments := splitOnChar '/' (stripSlashes path.data)
      let joined := joinDots ((segments.filter (fun s => s ≠ [])).map segmentPart)
      if joined = [] then "" else String.mk ('.' :: joined)
  root ++ "." ++ method ++ suffix

theorem segmentPart_ne_nil {s : List Char} (h : s ≠ []) : segmentPart s ≠ [] := by
  match s with
  | [] => exact absurd rfl h
  | c :: rest =>
    unfold segmentPart
    split
    · split <;> simp
    · simp_all

theorem joinDots_cons_ne_nil {p : List Char} (hp : p ≠ []) (ps : List (List Char)) :
    joinDots (p :: ps) ≠ [] := by
  match ps with
  | [] => simpa [joinDots] using hp
  | q :: qs => simp [joinDots]

/-- C5 counterexample: the claim says the resolver emits every split segment
(placeholders as `__name`, literal segments unchanged) and joins them with
dots, but on a pattern with consecutive slashes the source skips the empty
segment: `resolvePolicyPath "myapp" "GET" "/a//b"` is `"myapp.GET.a.b"`,
while the claimed algorithm yields `"myapp.GET.a..b"`. -/
theorem claimC5_counterexample :
    resolvePolicyPath "myapp" "GET" "/a//b" ≠
      specResolvePolicyPath "myapp" "GET" "/a//b" ∧
    resolvePolicyPath "myapp" "GET" "/a//b" = "myapp.GET.a.b" ∧
    specResolvePolicyPath "myapp" "GET" "/a//b" = "myapp.GET.a..b" := by
  refine ⟨by decide, by decide, by decide⟩

/-- C5 (amended): `resolvePolicyPath` is a pure function that strips leading
and trailing slashes, splits on `/`, emits `__name` for each `{name}`
placeholder and each non-empty literal segment unchanged — skipping empty
segments produced by consecutive slashes — joins with `.`, prefixes a single
`.` when non-empty, and returns `root + "." + method + suffix`; a root path
(`/` or empty) yields exactly `root.METHOD`; in particular the two cited
examples hold. -/
theorem claimC5_resolve_policy_path :
    (∀ root method path,
      resolvePolicyPath root method path = amendedSpecResolvePolicyPath root method path) ∧
    resolvePolicyPath "myapp" "GET" "/documents/{id}" = "myapp.GET.documents.__id" ∧
    resolvePolicyPath "myapp" "GET" "/" = "myapp.GET" := by
  refine ⟨?_, by decide, by decide⟩
  intro root method path
  unfold resolvePolicyPath amendedSpecResolvePolicyPath policyPathHeuristic
  congr 1
  dsimp only
  split
  · rfl
  · cases hl : (splitOnChar '/' (stripSlashes path.data)).filter (fun s => s ≠ []) with
    | nil => rfl
    | cons s ss =>
      have hmem : s ∈ (splitOnChar '/' (stripSlashes path.data)).filter (fun s => s ≠ []) := by
        rw [hl]; exact List.mem_cons_self s ss
      have hs : s ≠ [] := by
        have := (List.mem_filter.mp hmem).2
        simpa using this
      have hsp : segmentPart s ≠ [] := segmentPart_ne_nil hs
      have hj := joinDots_cons_ne_nil hsp (ss.map segmentPart)
      rw [List.map_cons, if_neg (by simp), if_neg hj]

/-! ## Exceptions

Python exception values relevant to the core, with the `isinstance`
relation restricted to the classes that appear in the source
(`ConnectionError` and `TimeoutError` are subclasses of `OSError`). -/

/-- A Python exception value. -/
inductive Exc where
  | connectionError (msg : String)
  | timeoutError (msg : String)
  | osError (msg : String)
  | otherError (name msg : String)
deriving DecidableEq, Repr

/-- A Python exception class, as listed in `failure_exceptions`. -/
inductive ExcType where
  | connErrorType
  | timeoutErrorType
  | osErrorType
  | otherType (name : String)
deriving DecidableEq, Repr

/-- Python `isinstance(exc, t)` for the modelled classes. -/
def Exc.isInstanceOf : Exc → ExcType → Bool
  | .connectionError _, .connErrorType => true
  | .connectionError _, .osErrorType => true
  | .timeoutError _, .timeoutErrorType => true
  | .timeoutError _, .osErrorType => true
  | .osError _, .osErrorType => true
  | .otherError n _, .otherType m => n == m
  | _, _ => false

/-! ## Glob matching (`fnmatch.fnmatch`, used by `no_stale_for`)

`fnmatch.fnmatch` on a POSIX system (where `os.path.normcase` is the
identity) compiles the pattern to a regex: `*` matches any sequence, `?`
any single character, `[seq]` a character class with `!` negation and
`a-b` ranges, and a `[` without a closing `]` is a literal `[`.  The
pattern is tokenized first so every function is structurally recursive. -/

/-- One token of a compiled glob pattern. -/
inductive GlobTok where
  | lit (c : Char)
  | anyChar
  | star
  | cls (neg : Bool) (body : List Char)
deriving DecidableEq, Repr

/-- Scan forward for the closing `]` of a character class, returning the
body before it and the remaining pattern after it. -/
def scanClassCore : List Char → Option (List Char × List Char)
  | [] => none
  | c :: rest =>
    if c = ']' then some ([], rest)
    else
      match scanClassCore rest with
      | some (b, r) => some (c :: b, r)
      | none => none

/-- Skip an optional leading `!` and then an optional leading `]`, as
`fnmatch.translate` does before scanning for the closing bracket. -/
def classSkip (s : List Char) : List Char × List Char :=
  let (h1, t1) : List Char × List Char :=
    match s with
    | c :: rest => if c = '!' then ([c], rest) else ([], c :: rest)
    | [] => ([], [])
  let (h2, t2) : List Char × List Char :=
    match t1 with
    | c :: rest => if c = ']' then ([c], rest) else ([], c :: rest)
    | [] => ([], [])
  (h1 ++ h2, t2)

/-- Find a character class after an opening `[`: per `fnmatch.translate`,
a leading `!` and then a leading `]` are consumed as body characters
before the scan for the closing `]` begins; if no closing `]` exists the
result is `none` and the `[` is treated as a literal. -/
def scanClass (s : List Char) : Option (List Char × List Char) :=
  match scanClassCore (classSkip s).2 with
  | some (b, r) => some ((classSkip s).1 ++ b, r)
  | none => none

theorem scanClassCore_length {s b r : List Char} (h : scanClassCore s = some (b, r)) :
    r.length < s.length := by
  induction s generalizing b r with
  | nil => simp [scanClassCore] at h
  | cons c rest ih =>
    unfold scanClassCore at h
    split at h
    · simp only [Option.some.injEq, Prod.mk.injEq] at h
      obtain ⟨_, hr⟩ := h
      subst hr
      simp
    · split at h
      · rename_i b0 r0 heq
        simp only [Option.some.injEq, Prod.mk.injEq] at h
        obtain ⟨_, hr⟩ := h
        subst hr
        exact Nat.lt_trans (ih heq) (by simp)
      · exact absurd h (by simp)

theorem classSkip_length (s : List Char) : (classSkip s).2.length ≤ s.length := by
  unfold classSkip
  cases s with
  | nil => simp
  | cons c rest =>
    by_cases hc : c = '!' <;> simp only [hc, if_pos, if_neg, reduceIte] <;>
      first
        | (cases rest with
           | nil => simp
           | cons d rest2 =>
             by_cases hd : d = ']' <;> simp [hd] <;> omega)
        | (by_cases hd : c = ']' <;> simp [hd, hc])

theorem scanClass_length {s b r : List Char} (h : scanClass s = some (b, r)) :
    r.length < s.length := by
  unfold scanClass at h
  have hskip := classSkip_length s
  cases hsc : scanClassCore (classSkip s).2 with
  | none => rw [hsc] at h; simp at h
  | some p =>
    cases p with
    | mk b0 r0 =>
      rw [hsc] at h
      simp only [Option.some.injEq, Prod.mk.injEq] at h
      obtain ⟨_, hr⟩ := h
      subst hr
      exact Nat.lt_of_lt_of_le (scanClassCore_length hsc) hskip

/-- Build a class token from a scanned body: a leading `!` negates. -/
def mkClassTok (body : List Char) : GlobTok :=
  match body with
  | '!' :: rest => .cls true rest
  | _ => .cls false body

/-- Tokenize a glob pattern (`fnmatch.translate`). -/
def parseGlob : List Char → List GlobTok
  | [] => []
  | c :: rest =>
    if c = '*' then .star :: parseGlob rest
    else if c = '?' then .anyChar :: parseGlob rest
    else if c = '[' then
      match h : scanClass rest with
      | some (body, r) => mkClassTok body :: parseGlob r
      | none => .lit '[' :: parseGlob rest
    else .lit c :: parseGlob rest
termination_by s => s.length
decreasing_by
  all_goals first
    | (have hlt := scanClass_length h; simp; omega)
    | simp

/-- Membership of a character in a class body, with `a-b` ranges; a
trailing `-` is a literal (as in the regex `fnmatch.translate` emits). -/
def classMem : List Char → Char → Bool
  | a :: '-' :: b :: rest, c =>
    (decide (a ≤ c) && decide (c ≤ b)) || classMem rest c
  | a :: rest, c => a == c || classMem rest c
  | [], _ => false

/-- Match a token list against a string (the regex produced by
`fnmatch.translate`, applied with `re.match` anchored at both ends). -/
def tokMatch : List GlobTok → List Char → Bool
  | [], [] => true
  | [], _ :: _ => false
  | .star :: ts, s =>
    tokMatch ts s ||
      (match s with
       | [] => false
       | _ :: s2 => tokMatch (.star :: ts) s2)
  | .anyChar :: ts, _ :: s2 => tokMatch ts s2
  | .anyChar :: _, [] => false
  | .lit c :: ts, d :: s2 => c == d && tokMatch ts s2
  | .lit _ :: _, [] => false
  | .cls neg body :: ts, d :: s2 => (neg != classMem body d) && tokMatch ts s2
  | .cls _ _ :: _, [] => false
termination_by ts s => (ts.length, s.length)
decreasing_by all_goals simp_wf <;> omega

/-- `fnmatch.fnmatch(name, pattern)` on POSIX (where `normcase` is the
identity). -/
def fnmatchMatch (name pattern : String) : Bool :=
  tokMatch (parseGlob pattern.data) name.data

/-! ## Circuit breaker (`circuit_breaker.py`)

The `CircuitBreaker` dataclass is split into its immutable configuration
(`CBConfig`) and its mutable fields (`CBState`); each `async` method
becomes a pure function threading the state, with `time.monotonic()`
passed in as a rational `now`.  The `on_state_change` / `on_fallback`
callbacks only log, so they are modelled by flags recording whether they
are configured (their invocation is reported by the orchestrator's
outcome). -/

/-- `CircuitState` from `circuit_breaker.py`. -/
inductive CircuitState where
  | closed
  | opened
  | halfOpen
deriving DecidableEq, Repr

/-- The `fallback` field: a strategy name or a custom callable.  The
callable receives the policy path, the resource context, the (filtered)
stale cached decision and the triggering error; the `request` argument of
the source callable is opaque to the decision and is omitted. -/
inductive FallbackStrategy where
  | strategy (s : String)
  | custom (f : String → List (String × String) → Option Bool → Exc → Bool)

/-- Configuration fields of the `CircuitBreaker` dataclass.  `no_stale_for`
is `None` or a list in the source; both `None` and `[]` are falsy there, so
an empty list models the unconfigured case. -/
structure CBConfig where
  failureThreshold : Nat := 5
  successThreshold : Nat := 2
  recoveryTimeout : ℚ := 30
  fallback : FallbackStrategy := .strategy "cache_then_deny"
  serveStaleCache : Bool := true
  staleCacheTtl : ℚ := 300
  noStaleFor : List String := []
  failureExceptions : List ExcType := [.connErrorType, .timeoutErrorType, .osErrorType]
  onFallbackConfigured : Bool := false
  halfOpenMaxRequests : Nat := 1

/-- Mutable state fields of the `CircuitBreaker` dataclass. -/
structure CBState where
  state : CircuitState := .closed
  failureCount : Nat := 0
  successCount : Nat := 0
  lastFailureTime : Option ℚ := none
  lastSuccessTime : Option ℚ := none
  openSince : Option ℚ := none
  halfOpenRequests : Nat := 0
deriving DecidableEq, Repr

/-- `CircuitBreaker._transition_to`: a no-op when the state is unchanged,
otherwise writes the new state and resets the per-state bookkeeping. -/
def transitionTo (s : CBState) (newState : CircuitState) (now : ℚ) : CBState :=
  if s.state = newState then s
  else
    let s1 := { s with state := newState }
    match newState with
    | .opened => { s1 with openSince := some now, halfOpenRequests := 0 }
    | .closed => { s1 with failureCount := 0, successCount := 0, openSince := none }
    | .halfOpen => { s1 with halfOpenRequests := 0 }

/-- `CircuitBreaker.record_success`. -/
def recordSuccess (cfg : CBConfig) (s : CBState) (now : ℚ) : CBState :=
  let s1 := { s with lastSuccessTime := some now, failureCount := 0 }
  if s1.state = .halfOpen then
    let s2 := { s1 with successCount := s1.successCount + 1 }
    if s2.successCount ≥ cfg.successThreshold then transitionTo s2 .closed now
    else s2
  else s1

/-- `CircuitBreaker.record_failure`. -/
def recordFailure (cfg : CBConfig) (s : CBState) (now : ℚ) : CBState :=
  let s1 := { s with
    lastFailureTime := some now
    failureCount := s.failureCount + 1
    successCount := 0 }
  if s1.state = .closed then
    if s1.failureCount ≥ cfg.failureThreshold then transitionTo s1 .opened now
    else s1
  else if s1.state = .halfOpen then transitionTo s1 .opened now
  else s1

/-- `CircuitBreaker.should_allow_request`: returns the answer and the
updated state. -/
def shouldAllowRequest (cfg : CBConfig) (s : CBState) (now : ℚ) : Bool × CBState :=
  match s.state with
  | .closed => (true, s)
  | .opened =>
    match s.openSince with
    | some t =>
      if now - t ≥ cfg.recoveryTimeout then
        let s1 := transitionTo s .halfOpen now
        (true, { s1 with halfOpenRequests := 1 })
      else (false, s)
    | none => (false, s)
  | .halfOpen =>
    if s.halfOpenRequests < cfg.halfOpenMaxRequests then
      (true, { s with halfOpenRequests := s.halfOpenRequests + 1 })
    else (false, s)

/-- `CircuitBreaker.is_failure_exception`. -/
def isFailureException (cfg : CBConfig) (e : Exc) : Bool :=
  cfg.failureExceptions.any (fun t => e.isInstanceOf t)

/-- The `no_stale_for` filtering at the top of
`CircuitBreaker.get_fallback_decision`: a present stale value is discarded
when any configured glob pattern matches the policy path. -/
def filterStale (cfg : CBConfig) (policyPath : String) (cached : Option Bool) :
    Option Bool :=
  match cached with
  | none => none
  | some v =>
    if cfg.noStaleFor.any (fun p => fnmatchMatch policyPath p) then none
    else some v

/-- `CircuitBreaker.get_fallback_decision`: `no_stale_for` filtering, then
dispatch on the strategy (custom callable, the four named strategies, and
deny as the default for an unknown strategy string). -/
def getFallbackDecision (cfg : CBConfig) (policyPath : String)
    (resourceContext : List (String × String)) (cachedDecision : Option Bool)
    (error : Exc) : Bool :=
  let cached := filterStale cfg policyPath cachedDecision
  match cfg.fallback with
  | .custom f => f policyPath resourceContext cached error
  | .strategy s =>
    if s = "cache_then_deny" then cached.getD false
    else if s = "cache_then_allow" then cached.getD true
    else if s = "deny" then false
    else if s = "allow" then true
    else false

/-- C3: `get_fallback_decision` dispatches on the strategy:
`cache_then_deny` returns the stale value if present else `false`;
`cache_then_allow` returns the stale value if present else `true`;
`deny` and `allow` return constants regardless of the stale value; an
unrecognized strategy string returns `false`; and when a configured
`no_stale_for` glob pattern matches the policy path the stale value is
treated as absent before dispatch. -/
theorem claimC3_fallback_dispatch :
    ∀ (cfg : CBConfig) (policyPath : String) (ctx : List (String × String))
      (cached : Option Bool) (err : Exc),
      (cfg.fallback = .strategy "cache_then_deny" →
        getFallbackDecision cfg policyPath ctx cached err =
          (filterStale cfg policyPath cached).getD false) ∧
      (cfg.fallback = .strategy "cache_then_allow" →
        getFallbackDecision cfg policyPath ctx cached err =
          (filterStale cfg policyPath cached).getD true) ∧
      (cfg.fallback = .strategy "deny" →
        getFallbackDecision cfg policyPath ctx cached err = false) ∧
      (cfg.fallback = .strategy "allow" →
        getFallbackDecision cfg policyPath ctx cached err = true) ∧
      (∀ s, s ≠ "cache_then_deny" → s ≠ "cache_then_allow" → s ≠ "deny" → s ≠ "allow" →
        cfg.fallback = .strategy s →
        getFallbackDecision cfg policyPath ctx cached err = false) ∧
      (cfg.noStaleFor.any (fun p => fnmatchMatch policyPath p) = true →
        getFallbackDecision cfg policyPath ctx cached err =
          getFallbackDecision cfg policyPath ctx none err) := by
  intro cfg policyPath ctx cached err
  refine ⟨?_, ?_, ?_, ?_, ?_, ?_⟩
  · intro h; simp [getFallbackDecision, h]
  · intro h; simp [getFallbackDecision, h]
  · intro h; simp [getFallbackDecision, h]
  · intro h; simp [getFallbackDecision, h]
  · intro s h1 h2 h3 h4 h
    simp [getFallbackDecision, h, h1, h2, h3, h4]
  · intro h
    cases cached with
    | none => rfl
    | some v =>
      unfold getFallbackDecision
      rw [show filterStale cfg policyPath (some v) = filterStale cfg policyPath none by
        simp [filterStale, h]]

/-- Witness for C3 at concrete inputs: with strategy `cache_then_deny` and
`no_stale_for = ["*.admin.*"]`, a stale `true` for `a.admin.b` is discarded
(result `false`), while for `x.y` it is served (result `true`). -/
theorem claimC3_fallback_dispatch_witness :
    getFallbackDecision
        { fallback := .strategy "cache_then_deny", noStaleFor := ["*.admin.*"] }
        "a.admin.b" [] (some true) (.connectionError "e") = false ∧
    getFallbackDecision
        { fallback := .strategy "cache_then_deny", noStaleFor := ["*.admin.*"] }
        "x.y" [] (some true) (.connectionError "e") = true := by
  constructor
  · have h := (claimC3_fallback_dispatch
      { fallback := .strategy "cache_then_deny", noStaleFor := ["*.admin.*"] }
      "a.admin.b" [] (some true) (.connectionError "e")).1 rfl
    rw [h]
    simp [filterStale, fnmatchMatch, parseGlob, tokMatch, scanClass, scanClassCore,
      classSkip, mkClassTok, classMem]
  · have h := (claimC3_fallback_dispatch
      { fallback := .strategy "cache_then_deny", noStaleFor := ["*.admin.*"] }
      "x.y" [] (some true) (.connectionError "e")).1 rfl
    rw [h]
    simp [filterStale, fnmatchMatch, parseGlob, tokMatch, scanClass, scanClassCore,
      classSkip, mkClassTok, classMem]

/-- Iterate a breaker operation `n` times (first application first). -/
def iterN (f : CBState → CBState) : Nat → CBState → CBState
  | 0, s => s
  | n + 1, s => iterN f n (f s)

theorem iterN_succ_last (f : CBState → CBState) (n : Nat) (s : CBState) :
    iterN f (n + 1) s = f (iterN f n s) := by
  induction n generalizing s with
  | zero => rfl
  | succ n ih =>
    show iterN f (n + 1) (f s) = _
    rw [ih (f s)]
    rfl

theorem closedFailIter (cfg : CBConfig) (now : ℚ) :
    ∀ (n : Nat) (s : CBState), s.state = .closed →
      s.failureCount + n < cfg.failureThreshold →
      (iterN (fun t => recordFailure cfg t now) n s).state = .closed ∧
      (iterN (fun t => recordFailure cfg t now) n s).failureCount = s.failureCount + n := by
  intro n
  induction n with
  | zero =>
    intro s hs _
    exact ⟨hs, rfl⟩
  | succ n ih =>
    intro s hs hlt
    have hng : ¬ (s.failureCount + 1 ≥ cfg.failureThreshold) := by omega
    have hstep : recordFailure cfg s now = { s with lastFailureTime := some now, failureCount := s.failureCount + 1, successCount := 0 } := by
      simp [recordFailure, hs, hng]
    have hrec := ih (recordFailure cfg s now)
      (by rw [hstep]; exact hs)
      (by rw [hstep]; show s.failureCount + 1 + n < _; omega)
    refine ⟨hrec.1, ?_⟩
    rw [show (iterN (fun t => recordFailure cfg t now) (n + 1) s) = (iterN (fun t => recordFailure cfg t now) n (recordFailure cfg s now)) from rfl]
    rw [hrec.2, hstep]
    show s.failureCount + 1 + n = s.failureCount + (n + 1)
    omega

theorem halfOpenSuccIter (cfg : CBConfig) (now : ℚ) :
    ∀ (n : Nat) (s : CBState), s.state = .halfOpen →
      s.successCount + n < cfg.successThreshold →
      (iterN (fun t => recordSuccess cfg t now) n s).state = .halfOpen ∧
      (iterN (fun t => recordSuccess cfg t now) n s).successCount = s.successCount + n := by
  intro n
  induction n with
  | zero =>
    intro s hs _
    exact ⟨hs, rfl⟩
  | succ n ih =>
    intro s hs hlt
    have hng : ¬ (s.successCount + 1 ≥ cfg.successThreshold) := by omega
    have hstep : recordSuccess cfg s now = { s with lastSuccessTime := some now, failureCount := 0, successCount := s.successCount + 1 } := by
      simp [recordSuccess, hs, hng]
    have hrec := ih (recordSuccess cfg s now)
      (by rw [hstep]; exact hs)
      (by rw [hstep]; show s.successCount + 1 + n < _; omega)
    refine ⟨hrec.1, ?_⟩
    rw [show (iterN (fun t => recordSuccess cfg t now) (n + 1) s) = (iterN (fun t => recordSuccess cfg t now) n (recordSuccess cfg s now)) from rfl]
    rw [hrec.2, hstep]
    show s.successCount + 1 + n = s.successCount + (n + 1)
    omega

/-- Run `should_allow_request` `n` times in a row, counting `true` answers. -/
def allowCount (cfg : CBConfig) (now : ℚ) : Nat → CBState → Nat × CBState
  | 0, s => (0, s)
  | n + 1, s =>
    let r := shouldAllowRequest cfg s now
    let rest := allowCount cfg now n r.2
    ((if r.1 then 1 else 0) + rest.1, rest.2)

theorem allowCountHalfOpen (cfg : CBConfig) (now : ℚ) :
    ∀ (n : Nat) (s : CBState), s.state = .halfOpen →
      (allowCount cfg now n s).1 =
        min n (cfg.halfOpenMaxRequests - s.halfOpenRequests) := by
  intro n
  induction n with
  | zero => intro s _; simp [allowCount]
  | succ n ih =>
    intro s hs
    by_cases hlt : s.halfOpenRequests < cfg.halfOpenMaxRequests
    · have hstep : shouldAllowRequest cfg s now = (true, { s with halfOpenRequests := s.halfOpenRequests + 1 }) := by
        simp [shouldAllowRequest, hs, hlt]
      have hrec := ih ({ s with halfOpenRequests := s.halfOpenRequests + 1 }) (by exact hs)
      simp [allowCount, hstep, hrec]
      omega
    · have hstep : shouldAllowRequest cfg s now = (false, s) := by
        simp [shouldAllowRequest, hs, hlt]
      have hrec := ih s hs
      simp [allowCount, hstep, hrec]
      omega

/-- C2: the circuit breaker step relation: from CLOSED, `failureThreshold`
consecutive failures (and no fewer) transition to OPEN and a single success
resets the failure streak; from OPEN, `should_allow_request` answers false
before `recoveryTimeout` has elapsed and, once it has, answers true,
transitions to HALF_OPEN and consumes the first half-open slot; from
HALF_OPEN, `successThreshold` consecutive successes close the circuit, a
single failure reopens it, and among `n` consecutive
`should_allow_request` calls exactly `min n halfOpenMaxRequests` answer
true. -/
theorem claimC2_circuit_breaker_state_machine :
    ∀ (cfg : CBConfig) (now : ℚ),
      (∀ (s : CBState) (n : Nat), s.state = .closed → s.failureCount = 0 →
        1 ≤ cfg.failureThreshold →
        (n < cfg.failureThreshold →
          (iterN (fun t => recordFailure cfg t now) n s).state = .closed) ∧
        (iterN (fun t => recordFailure cfg t now) cfg.failureThreshold s).state = .opened) ∧
      (∀ s : CBState, s.state = .closed →
        (recordSuccess cfg s now).state = .closed ∧
        (recordSuccess cfg s now).failureCount = 0) ∧
      (∀ (s : CBState) (t : ℚ), s.state = .opened → s.openSince = some t →
        (now - t < cfg.recoveryTimeout → shouldAllowRequest cfg s now = (false, s)) ∧
        (cfg.recoveryTimeout ≤ now - t →
          (shouldAllowRequest cfg s now).1 = true ∧
          (shouldAllowRequest cfg s now).2.state = .halfOpen ∧
          (shouldAllowRequest cfg s now).2.halfOpenRequests = 1)) ∧
      (∀ (s : CBState) (n : Nat), s.state = .halfOpen → s.successCount = 0 →
        1 ≤ cfg.successThreshold →
        (n < cfg.successThreshold →
          (iterN (fun t => recordSuccess cfg t now) n s).state = .halfOpen) ∧
        (iterN (fun t => recordSuccess cfg t now) cfg.successThreshold s).state = .closed) ∧
      (∀ s : CBState, s.state = .halfOpen → (recordFailure cfg s now).state = .opened) ∧
      (∀ (s : CBState) (n : Nat), s.state = .halfOpen → s.halfOpenRequests = 0 →
        (allowCount cfg now n s).1 = min n cfg.halfOpenMaxRequests ∧
        (allowCount cfg now n s).1 ≤ cfg.halfOpenMaxRequests) := by
  intro cfg now
  refine ⟨?_, ?_, ?_, ?_, ?_, ?_⟩
  · intro s n hs hfc hthr
    constructor
    · intro hn
      exact (closedFailIter cfg now n s hs (by omega)).1
    · obtain ⟨m, hm⟩ : ∃ m, cfg.failureThreshold = m + 1 :=
        ⟨cfg.failureThreshold - 1, by omega⟩
      rw [hm, iterN_succ_last]
      have hpre := closedFailIter cfg now m s hs (by omega)
      have hfc2 : (iterN (fun t => recordFailure cfg t now) m s).failureCount + 1 ≥ cfg.failureThreshold := by
        rw [hpre.2]; omega
      set s2 := iterN (fun t => recordFailure cfg t now) m s with hs2
      have h1 : ({ s2 with lastFailureTime := some now, failureCount := s2.failureCount + 1, successCount := 0 } : CBState).state = .closed := hpre.1
      simp [recordFailure, hpre.1, hfc2, transitionTo, h1]
  · intro s hs
    constructor
    · simp [recordSuccess, hs]
    · simp [recordSuccess, hs]
  · intro s t hs hos
    constructor
    · intro hlt
      have : ¬ (now - t ≥ cfg.recoveryTimeout) := not_le.mpr hlt
      simp [shouldAllowRequest, hs, hos, this]
    · intro hge
      have hne : s.state ≠ CircuitState.halfOpen := by rw [hs]; intro h; cases h
      refine ⟨?_, ?_, ?_⟩ <;>
        simp [shouldAllowRequest, hs, hos, hge, transitionTo, hne]
  · intro s n hs hsc hthr
    constructor
    · intro hn
      exact (halfOpenSuccIter cfg now n s hs (by omega)).1
    · obtain ⟨m, hm⟩ : ∃ m, cfg.successThreshold = m + 1 :=
        ⟨cfg.successThreshold - 1, by omega⟩
      rw [hm, iterN_succ_last]
      have hpre := halfOpenSuccIter cfg now m s hs (by omega)
      have hsc2 : (iterN (fun t => recordSuccess cfg t now) m s).successCount + 1 ≥ cfg.successThreshold := by
        rw [hpre.2]; omega
      set s2 := iterN (fun t => recordSuccess cfg t now) m s with hs2
      have h1 : ({ s2 with lastSuccessTime := some now, failureCount := 0 } : CBState).state = .halfOpen := hpre.1
      have h2 : ({ s2 with lastSuccessTime := some now, failureCount := 0 } : CBState).state ≠ CircuitState.closed := by
        rw [h1]; intro h; cases h
      simp [recordSuccess, hpre.1, hsc2, transitionTo, h1, h2]
  · intro s hs
    have h1 : s.state ≠ CircuitState.closed := by rw [hs]; intro h; cases h
    have h2 : ({ s with lastFailureTime := some now, failureCount := s.failureCount + 1, successCount := 0 } : CBState).state ≠ CircuitState.opened := by
      show s.state ≠ CircuitState.opened
      rw [hs]; intro h; cases h
    simp [recordFailure, hs, h1, transitionTo, h2]
  · intro s n hs hh
    have := allowCountHalfOpen cfg now n s hs
    rw [hh] at this
    simp at this
    exact ⟨this, by rw [this]; omega⟩

/-- Witness for C2 at concrete inputs (`failureThreshold = 2`,
`halfOpenMaxRequests = 2`, `recoveryTimeout = 30`): two failures open the
circuit; at 20 elapsed seconds the gate still refuses; five half-open
probes admit exactly two requests. -/
theorem claimC2_circuit_breaker_state_machine_witness :
    (iterN (fun t => recordFailure { failureThreshold := 2, halfOpenMaxRequests := 2 } t 100) 2 {}).state = .opened ∧
    shouldAllowRequest { failureThreshold := 2, halfOpenMaxRequests := 2 } { state := .opened, openSince := some 80 } 100 = (false, { state := .opened, openSince := some 80 }) ∧
    (allowCount { failureThreshold := 2, halfOpenMaxRequests := 2 } 100 5 { state := .halfOpen }).1 = min 5 2 := by
  refine ⟨?_, ?_, ?_⟩
  · exact ((claimC2_circuit_breaker_state_machine { failureThreshold := 2, halfOpenMaxRequests := 2 } 100).1 {} 2 rfl rfl (by decide)).2
  · exact (((claimC2_circuit_breaker_state_machine { failureThreshold := 2, halfOpenMaxRequests := 2 } 100).2.2.1 { state := .opened, openSince := some 80 } 80 rfl rfl).1 (by norm_num))
  · exact ((claimC2_circuit_breaker_state_machine { failureThreshold := 2, halfOpenMaxRequests := 2 } 100).2.2.2.2.2 { state := .halfOpen } 5 rfl rfl).1

/-! ## Decision cache (`dependencies.py`, `DecisionCache`)

Python dicts are insertion-ordered, so the cache table is an association
list: assignment replaces in place (keeping the position) or appends, and
`list(keys())` is the key list in insertion order.  The cache key in the
source is the SHA-256 digest of
`identity:policy_path:decision:str(sorted(ctx.items()))` truncated to 32
hex characters; the digest and the serialization are modelled as the
injective function of the four fields they encode (the spec accepts the
truncated-digest collision risk), with the context normalised exactly as
the source does: `None` and the empty dict both serialize to `""`, and any
other dict to its key-sorted item list. -/

/-- A resource context: string keys to (stringly modelled) values. -/
abbrev Ctx := List (String × String)

/-- Python tuple ordering on context items, as used by `sorted(...)`. -/
def pairLe (a b : String × String) : Bool :=
  a.1 < b.1 || (a.1 = b.1 && a.2 ≤ b.2)

/-- Insert into a sorted list (insertion sort step). -/
def insertSorted (x : String × String) : Ctx → Ctx
  | [] => [x]
  | y :: ys => if pairLe x y then x :: y :: ys else y :: insertSorted x ys

/-- `sorted(resource_context.items())`. -/
def sortPairs (l : Ctx) : Ctx :=
  l.foldr insertSorted []

/-- The context part of the cache key: falsy contexts (`None` or `{}`)
serialize to the empty string, others to their sorted item list. -/
def ctxCanon : Option Ctx → Ctx
  | none => []
  | some l => sortPairs l

/-- A cache key (`_make_key` / `_make_stale_cache_key`): the truncated
SHA-256 digest modelled as the injective tuple it digests. -/
abbrev CacheKey := String × String × String × Ctx

/-- `_make_key(identity_value, policy_path, decision, resource_context)`. -/
def makeKey (identityValue policyPath decision : String) (ctx : Option Ctx) : CacheKey :=
  (identityValue, policyPath, decision, ctxCanon ctx)

/-- Python dict read: first (only) binding of the key. -/
def dictGet {α β : Type} [DecidableEq α] (k : α) : List (α × β) → Option β
  | [] => none
  | (k0, v) :: rest => if k0 = k then some v else dictGet k rest

/-- Python dict assignment: replace in place, else append. -/
def dictInsert {α β : Type} [DecidableEq α] (k : α) (v : β) : List (α × β) → List (α × β)
  | [] => [(k, v)]
  | (k0, v0) :: rest =>
    if k0 = k then (k, v) :: rest else (k0, v0) :: dictInsert k v rest

/-- Python `del d[k]`. -/
def dictRemove {α β : Type} [DecidableEq α] (k : α) (l : List (α × β)) : List (α × β) :=
  l.filter (fun p => p.1 ≠ k)

/-- `CacheEntry` from `dependencies.py`. -/
structure CacheEntry where
  value : Bool
  expiresAt : ℚ
deriving DecidableEq, Repr

/-- `DecisionCache` from `dependencies.py`: TTL, size bound, and the
insertion-ordered table. -/
structure DecisionCache where
  ttlSeconds : ℚ := 60
  maxSize : Nat := 1000
  cache : List (CacheKey × CacheEntry) := []
deriving Repr

/-- `DecisionCache.get`: a missing key gives `None`; an entry past its
`expires_at` is evicted on discovery and gives `None`; otherwise the value
is returned. -/
def cacheGet (dc : DecisionCache) (identityValue policyPath decision : String)
    (ctx : Option Ctx) (now : ℚ) : Option Bool × DecisionCache :=
  let key := makeKey identityValue policyPath decision ctx
  match dictGet key dc.cache with
  | none => (none, dc)
  | some e =>
    if now > e.expiresAt then (none, { dc with cache := dictRemove key dc.cache })
    else (some e.value, dc)

/-- The eviction phase at the top of `DecisionCache.set`: when the table is
at `max_size`, drop already-expired entries; if still full, drop the first
`max_size // 10` keys in insertion order. -/
def cacheEvict (maxSize : Nat) (now : ℚ) (c : List (CacheKey × CacheEntry)) :
    List (CacheKey × CacheEntry) :=
  if c.length ≥ maxSize then
    let cA := c.filter (fun p => ¬ (p.2.expiresAt < now))
    if cA.length ≥ maxSize then
      let toRemove := (cA.map Prod.fst).take (maxSize / 10)
      cA.filter (fun p => p.1 ∉ toRemove)
    else cA
  else c

/-- `DecisionCache.set`: evict if full, then insert with
`expires_at = now + ttl_seconds`. -/
def cacheSet (dc : DecisionCache) (identityValue policyPath decision : String)
    (ctx : Option Ctx) (value : Bool) (now : ℚ) : DecisionCache :=
  let key := makeKey identityValue policyPath decision ctx
  { dc with cache :=
      dictInsert key ⟨value, now + dc.ttlSeconds⟩ (cacheEvict dc.maxSize now dc.cache) }

theorem dictGet_insert_same {α β : Type} [DecidableEq α] (k : α) (v : β) (l : List (α × β)) :
    dictGet k (dictInsert k v l) = some v := by
  induction l with
  | nil => simp [dictInsert, dictGet]
  | cons p rest ih =>
    cases p with
    | mk k0 v0 =>
      by_cases h : k0 = k
      · simp [dictInsert, dictGet, h]
      · simp [dictInsert, dictGet, h, ih]

theorem cacheEvict_nil (maxSize : Nat) (now : ℚ) : cacheEvict maxSize now [] = [] := by
  simp [cacheEvict]

theorem cacheSet_empty (ttl : ℚ) (maxSize : Nat) (idv pp dec : String)
    (ctx : Option Ctx) (v : Bool) (now : ℚ) :
    (cacheSet ⟨ttl, maxSize, []⟩ idv pp dec ctx v now).cache =
      [(makeKey idv pp dec ctx, ⟨v, now + ttl⟩)] := by
  simp [cacheSet, cacheEvict_nil, dictInsert]

/-- C8: `set` followed by `get` with the same (identity, policy path,
decision, context) returns the value just stored (for any cache state with
a non-negative TTL); on a freshly-set cache, `get` with any single
differing key field — differing context meaning a context with a different
canonical (sorted) item list — returns absent; and with `ttl = 60` a value
set at `t` is returned at `t + 59` and absent at `t + 61`, the expired
entry being evicted by that discovery. -/
theorem claimC8_cache_roundtrip :
    ∀ (idv pp dec : String) (ctx : Option Ctx) (v : Bool) (now : ℚ),
      (∀ dc : DecisionCache, 0 ≤ dc.ttlSeconds →
        (cacheGet (cacheSet dc idv pp dec ctx v now) idv pp dec ctx now).1 = some v) ∧
      (∀ (ttl : ℚ) (maxSize : Nat) (idv2 : String), idv2 ≠ idv →
        (cacheGet (cacheSet ⟨ttl, maxSize, []⟩ idv pp dec ctx v now) idv2 pp dec ctx now).1 = none) ∧
      (∀ (ttl : ℚ) (maxSize : Nat) (pp2 : String), pp2 ≠ pp →
        (cacheGet (cacheSet ⟨ttl, maxSize, []⟩ idv pp dec ctx v now) idv pp2 dec ctx now).1 = none) ∧
      (∀ (ttl : ℚ) (maxSize : Nat) (dec2 : String), dec2 ≠ dec →
        (cacheGet (cacheSet ⟨ttl, maxSize, []⟩ idv pp dec ctx v now) idv pp dec2 ctx now).1 = none) ∧
      (∀ (ttl : ℚ) (maxSize : Nat) (ctx2 : Option Ctx), ctxCanon ctx2 ≠ ctxCanon ctx →
        (cacheGet (cacheSet ⟨ttl, maxSize, []⟩ idv pp dec ctx v now) idv pp dec ctx2 now).1 = none) ∧
      (∀ maxSize : Nat,
        (cacheGet (cacheSet ⟨60, maxSize, []⟩ idv pp dec ctx v now) idv pp dec ctx (now + 59)).1 = some v ∧
        (cacheGet (cacheSet ⟨60, maxSize, []⟩ idv pp dec ctx v now) idv pp dec ctx (now + 61)).1 = none ∧
        (cacheGet (cacheSet ⟨60, maxSize, []⟩ idv pp dec ctx v now) idv pp dec ctx (now + 61)).2.cache = []) := by
  intro idv pp dec ctx v now
  refine ⟨?_, ?_, ?_, ?_, ?_, ?_⟩
  · intro dc httl
    have hexp : ¬ (now > now + dc.ttlSeconds) := by linarith
    simp [cacheGet, cacheSet, dictGet_insert_same, hexp]
  · intro ttl maxSize idv2 hne
    simp [cacheGet, cacheSet_empty, dictGet, makeKey, hne, Ne.symm hne]
  · intro ttl maxSize pp2 hne
    simp [cacheGet, cacheSet_empty, dictGet, makeKey, hne, Ne.symm hne]
  · intro ttl maxSize dec2 hne
    simp [cacheGet, cacheSet_empty, dictGet, makeKey, hne, Ne.symm hne]
  · intro ttl maxSize ctx2 hne
    simp [cacheGet, cacheSet_empty, dictGet, makeKey, hne, Ne.symm hne]
  · intro maxSize
    have h59 : ¬ ((now + 59 : ℚ) > now + 60) := by linarith
    have h61 : ((now + 61 : ℚ) > now + 60) := by linarith
    refine ⟨?_, ?_, ?_⟩
    · simp [cacheGet, cacheSet_empty, dictGet, h59]
    · simp [cacheGet, cacheSet_empty, dictGet, h61]
    · simp [cacheGet, cacheSet_empty, dictGet, h61, dictRemove]

/-- Witness for C8 at concrete inputs: a round trip for
(alice, app.GET.docs, allowed, `[("id","42")]`), an absent read for bob, and
the `ttl = 60` presence at `t + 59` / absence at `t + 61`. -/
theorem claimC8_cache_roundtrip_witness :
    (cacheGet (cacheSet ⟨60, 10, []⟩ "alice" "app.GET.docs" "allowed" (some [("id", "42")]) true 0) "alice" "app.GET.docs" "allowed" (some [("id", "42")]) 0).1 = some true ∧
    (cacheGet (cacheSet ⟨60, 10, []⟩ "alice" "app.GET.docs" "allowed" (some [("id", "42")]) true 0) "bob" "app.GET.docs" "allowed" (some [("id", "42")]) 0).1 = none ∧
    (cacheGet (cacheSet ⟨60, 10, []⟩ "alice" "app.GET.docs" "allowed" (some [("id", "42")]) true 0) "alice" "app.GET.docs" "allowed" (some [("id", "42")]) 59).1 = some true ∧
    (cacheGet (cacheSet ⟨60, 10, []⟩ "alice" "app.GET.docs" "allowed" (some [("id", "42")]) true 0) "alice" "app.GET.docs" "allowed" (some [("id", "42")]) 61).1 = none := by
  refine ⟨?_, ?_, ?_, ?_⟩
  · exact (claimC8_cache_roundtrip "alice" "app.GET.docs" "allowed" (some [("id", "42")]) true 0).1 ⟨60, 10, []⟩ (by norm_num)
  · exact (claimC8_cache_roundtrip "alice" "app.GET.docs" "allowed" (some [("id", "42")]) true 0).2.1 60 10 "bob" (by decide)
  · have h := ((claimC8_cache_roundtrip "alice" "app.GET.docs" "allowed" (some [("id", "42")]) true 0).2.2.2.2.2 10).1
    norm_num at h
    exact h
  · have h := ((claimC8_cache_roundtrip "alice" "app.GET.docs" "allowed" (some [("id", "42")]) true 0).2.2.2.2.2 10).2.1
    norm_num at h
    exact h

/-- One `DecisionCache.set` call with its arguments and its clock reading. -/
structure SetOp where
  identityValue : String
  policyPath : String
  decision : String
  ctx : Option Ctx
  value : Bool
  now : ℚ

/-- Run a sequence of `set` operations against the cache. -/
def runSets (dc : DecisionCache) : List SetOp → DecisionCache
  | [] => dc
  | op :: rest =>
    runSets (cacheSet dc op.identityValue op.policyPath op.decision op.ctx op.value op.now) rest

theorem length_dictInsert_le {α β : Type} [DecidableEq α] (k : α) (v : β) (l : List (α × β)) :
    (dictInsert k v l).length ≤ l.length + 1 := by
  induction l with
  | nil => simp [dictInsert]
  | cons p rest ih =>
    cases p with
    | mk k0 v0 =>
      by_cases h : k0 = k
      · simp [dictInsert, h]
      · simp [dictInsert, h]
        omega

theorem evict_second_lt {l : List (CacheKey × CacheEntry)} {n : Nat} (hl : l ≠ []) (hn : 1 ≤ n) :
    (l.filter (fun p => p.1 ∉ (l.map Prod.fst).take n)).length < l.length := by
  cases l with
  | nil => exact absurd rfl hl
  | cons p t =>
    obtain ⟨m, rfl⟩ : ∃ m, n = m + 1 := ⟨n - 1, by omega⟩
    rw [List.filter_cons]
    have hdec : (decide (p.1 ∉ ((p :: t).map Prod.fst).take (m + 1))) = false := by simp
    rw [hdec]
    simp only [List.length_cons]
    exact Nat.lt_succ_of_le (List.length_filter_le _ _)

theorem cacheSet_length (dc : DecisionCache) (idv pp dec : String) (ctx : Option Ctx)
    (v : Bool) (now : ℚ) (h10 : 10 ≤ dc.maxSize) (hle : dc.cache.length ≤ dc.maxSize) :
    (cacheSet dc idv pp dec ctx v now).cache.length ≤ dc.maxSize := by
  unfold cacheSet cacheEvict
  by_cases hfull : dc.cache.length ≥ dc.maxSize
  · simp only [hfull, if_pos]
    set cA := dc.cache.filter (fun p => ¬ (p.2.expiresAt < now)) with hcA
    by_cases hfull2 : cA.length ≥ dc.maxSize
    · simp only [hfull2, if_pos]
      have hcAle : cA.length ≤ dc.cache.length := List.length_filter_le _ _
      have hcAeq : cA.length = dc.maxSize := by omega
      have hcAne : cA ≠ [] := by
        intro h
        rw [h] at hcAeq
        simp at hcAeq
        omega
      have hlt := evict_second_lt (l := cA) (n := dc.maxSize / 10) hcAne (by omega)
      calc (dictInsert (makeKey idv pp dec ctx) ⟨v, now + dc.ttlSeconds⟩
              (cA.filter (fun p => p.1 ∉ (cA.map Prod.fst).take (dc.maxSize / 10)))).length
          ≤ (cA.filter (fun p => p.1 ∉ (cA.map Prod.fst).take (dc.maxSize / 10))).length + 1 :=
            length_dictInsert_le _ _ _
        _ ≤ dc.maxSize := by omega
    · simp only [hfull2, if_neg, reduceIte]
      have : cA.length + 1 ≤ dc.maxSize := by omega
      calc (dictInsert (makeKey idv pp dec ctx) ⟨v, now + dc.ttlSeconds⟩ cA).length
          ≤ cA.length + 1 := length_dictInsert_le _ _ _
        _ ≤ dc.maxSize := this
  · simp only [hfull, if_neg, reduceIte]
    calc (dictInsert (makeKey idv pp dec ctx) ⟨v, now + dc.ttlSeconds⟩ dc.cache).length
        ≤ dc.cache.length + 1 := length_dictInsert_le _ _ _
      _ ≤ dc.maxSize := by omega

/-- C10 counterexample: with `max_size = 1` the 10%-slice eviction
`list(keys())[:max_size // 10]` removes zero entries, so two inserts of
distinct fresh keys leave 2 > 1 entries in the table. -/
theorem claimC10_counterexample :
    (runSets { ttlSeconds := 60, maxSize := 1, cache := [] }
      [⟨"a", "p", "d", none, true, 0⟩, ⟨"b", "p", "d", none, true, 0⟩]).cache.length = 2 ∧
    (runSets { ttlSeconds := 60, maxSize := 1, cache := [] }
      [⟨"a", "p", "d", none, true, 0⟩, ⟨"b", "p", "d", none, true, 0⟩]).maxSize = 1 := by
  constructor
  · norm_num [runSets, cacheSet, cacheEvict, dictInsert, makeKey, ctxCanon, sortPairs,
      show ("a" : String) ≠ "b" from by decide]
  · rfl

/-- C10 (amended): for `maxSize ≥ 10` (so that the oldest-10% slice is
non-empty) the cache is size-bounded: starting within the bound, no
sequence of `set` operations pushes the number of stored entries above
`maxSize`, because `set` at capacity first drops expired entries and then
an oldest slice in insertion order before inserting. -/
theorem claimC10_size_bound :
    ∀ (dc : DecisionCache) (ops : List SetOp),
      10 ≤ dc.maxSize → dc.cache.length ≤ dc.maxSize →
      (runSets dc ops).cache.length ≤ dc.maxSize := by
  intro dc ops
  induction ops generalizing dc with
  | nil => intro _ h; exact h
  | cons op rest ih =>
    intro h10 hle
    have hstep := cacheSet_length dc op.identityValue op.policyPath op.decision op.ctx
      op.value op.now h10 hle
    exact ih (cacheSet dc op.identityValue op.policyPath op.decision op.ctx op.value op.now)
      h10 hstep

/-- Witness for C10 (amended) at a concrete input: two inserts into an
empty `maxSize = 10` cache stay within the bound. -/
theorem claimC10_size_bound_witness :
    (runSets { ttlSeconds := 60, maxSize := 10, cache := [] }
      [⟨"a", "p", "d", none, true, 0⟩, ⟨"b", "p", "d", none, true, 0⟩]).cache.length ≤ 10 :=
  claimC10_size_bound { ttlSeconds := 60, maxSize := 10, cache := [] }
    [⟨"a", "p", "d", none, true, 0⟩, ⟨"b", "p", "d", none, true, 0⟩]
    (by norm_num) (by simp)

/-! ## Orchestrator (`dependencies.py`, `TopazConfig.check_decision`)

`TopazConfig` holds the cache, the circuit breaker (config and mutable
state), the optional connection pool and the stale-cache side table.  The
authorizer RPC is an oracle argument: the decision map it would return, or
the exception it would raise.  The outcome records the decision (or the
re-raised exception), whether a network call was attempted, where the
client came from, and whether the `on_fallback` callback was invoked. -/

/-- The stale-cache side table `_stale_cache`: key to (value, cached-at). -/
abbrev StaleCache := List (CacheKey × (Bool × ℚ))

/-- An `aserto` `Identity`: a kind tag and an optional value. -/
structure Identity where
  idType : String
  value : Option String
deriving DecidableEq, Repr

/-- `identity.value or ""`. -/
def identityValueOf (i : Identity) : String :=
  i.value.getD ""

/-- Where the authorizer client used for a call came from. -/
inductive ClientSource where
  | perCall
  | pooled
deriving DecidableEq, Repr

/-- The engine state: the orchestration-relevant fields of `TopazConfig`.
`poolConfigured` records whether a `ConnectionPool` was passed (the source
stores and configures it but, as the theorems show, never consults it in
`check_decision`). -/
structure Engine where
  decisionCache : Option DecisionCache := none
  circuitBreaker : Option (CBConfig × CBState) := none
  poolConfigured : Bool := false
  staleCache : StaleCache := []

/-- `_get_stale_cached` given that a breaker is configured: honor
`serve_stale_cache`, drop entries older than `stale_cache_ttl` on
discovery. -/
def staleLookup (cbc : CBConfig) (sc : StaleCache) (identityValue policyPath decision : String)
    (ctx : Option Ctx) (now : ℚ) : Option Bool × StaleCache :=
  if ¬ cbc.serveStaleCache then (none, sc)
  else
    let key := makeKey identityValue policyPath decision ctx
    match dictGet key sc with
    | none => (none, sc)
    | some (v, cachedAt) =>
      if now - cachedAt > cbc.staleCacheTtl then (none, dictRemove key sc)
      else (some v, sc)

/-- Stable insertion (by `cached_at` ascending) for the stale-cache
eviction sort. -/
def insertByTime (x : CacheKey × (Bool × ℚ)) : StaleCache → StaleCache
  | [] => [x]
  | y :: ys => if x.2.2 < y.2.2 then x :: y :: ys else y :: insertByTime x ys

/-- `sorted(keys, key=lambda k: cached_at)` (stable, ascending). -/
def sortByTime (sc : StaleCache) : StaleCache :=
  sc.foldl (fun acc x => insertByTime x acc) []

/-- `_set_stale_cached`: no-op without a breaker; insert, then when the
table exceeds 10000 entries drop the 1000 oldest by `cached_at`. -/
def setStaleCached (eng : Engine) (identityValue policyPath decision : String)
    (ctx : Option Ctx) (v : Bool) (now : ℚ) : StaleCache :=
  match eng.circuitBreaker with
  | none => eng.staleCache
  | some _ =>
    let key := makeKey identityValue policyPath decision ctx
    let sc := dictInsert key (v, now) eng.staleCache
    if sc.length > 10000 then
      let toRemove := ((sortByTime sc).map Prod.fst).take (10000 / 10)
      sc.filter (fun p => p.1 ∉ toRemove)
    else sc

/-- The fresh-cache lookup at the top of `check_decision` (`None` when no
cache is configured). -/
def freshLookup (eng : Engine) (identityValue policyPath decision : String)
    (ctx : Option Ctx) (now : ℚ) : Option Bool :=
  match eng.decisionCache with
  | none => none
  | some dc => (cacheGet dc identityValue policyPath decision ctx now).1

/-- The cache state after that lookup (it may evict an expired entry). -/
def freshEvolve (eng : Engine) (identityValue policyPath decision : String)
    (ctx : Option Ctx) (now : ℚ) : Option DecisionCache :=
  match eng.decisionCache with
  | none => none
  | some dc => some (cacheGet dc identityValue policyPath decision ctx now).2

/-- Outcome of one `check_decision` call. -/
structure CheckOutcome where
  result : Except Exc Bool
  networkCalled : Bool
  clientSource : Option ClientSource
  onFallbackInvoked : Bool
  engine : Engine

/-- The network phase of `check_decision` (reached when neither the fresh
cache nor the breaker gate short-circuits): the client is constructed
per-call by `create_client` — the source never calls `pool.acquire` — the
RPC result map is read with `decisions_result.get(decision, False)`; on
success the breaker, the fresh cache and the stale cache are updated; on a
failure-worthy exception the breaker records the failure and the fallback
path runs; otherwise the exception is re-raised. -/
def networkPhase (eng : Engine) (identityValue policyPath decision : String)
    (ctx : Option Ctx) (now : ℚ)
    (authResult : Except Exc (List (String × Bool))) : CheckOutcome :=
  match authResult with
  | .ok decisions =>
    let result := (dictGet decision decisions).getD false
    let eng1 := { eng with
      circuitBreaker := eng.circuitBreaker.map
        (fun (p : CBConfig × CBState) => (p.1, recordSuccess p.1 p.2 now)) }
    let eng2 := { eng1 with
      decisionCache := eng1.decisionCache.map
        (fun dc => cacheSet dc identityValue policyPath decision ctx result now) }
    let eng3 := { eng2 with
      staleCache := setStaleCached eng2 identityValue policyPath decision ctx result now }
    ⟨.ok result, true, some .perCall, false, eng3⟩
  | .error e =>
    match eng.circuitBreaker with
    | some (cbc, cbs) =>
      if isFailureException cbc e then
        let eng1 := { eng with circuitBreaker := some (cbc, recordFailure cbc cbs now) }
        let st := staleLookup cbc eng1.staleCache identityValue policyPath decision ctx now
        let fb := getFallbackDecision cbc policyPath (ctx.getD []) st.1 e
        ⟨.ok fb, true, some .perCall, cbc.onFallbackConfigured, { eng1 with staleCache := st.2 }⟩
      else ⟨.error e, true, some .perCall, false, eng⟩
    | none => ⟨.error e, true, some .perCall, false, eng⟩

/-- `TopazConfig.check_decision`: fresh-cache hit returns immediately; an
open breaker gate serves the fallback from the stale cache with no network
call; otherwise the network phase runs. -/
def checkDecision (eng : Engine) (ident : Identity) (policyPath decision : String)
    (ctx : Option Ctx) (now : ℚ)
    (authResult : Except Exc (List (String × Bool))) : CheckOutcome :=
  let identityValue := identityValueOf ident
  let eng1 : Engine :=
    { eng with decisionCache := freshEvolve eng identityValue policyPath decision ctx now }
  match freshLookup eng identityValue policyPath decision ctx now with
  | some v => ⟨.ok v, false, none, false, eng1⟩
  | none =>
    match eng.circuitBreaker with
    | some (cbc, cbs) =>
      let gate := shouldAllowRequest cbc cbs now
      let eng2 := { eng1 with circuitBreaker := some (cbc, gate.2) }
      if gate.1 then
        networkPhase eng2 identityValue policyPath decision ctx now authResult
      else
        let st := staleLookup cbc eng2.staleCache identityValue policyPath decision ctx now
        let fb := getFallbackDecision cbc policyPath (ctx.getD []) st.1
          (.connectionError "Circuit breaker open")
        ⟨.ok fb, false, none, cbc.onFallbackConfigured, { eng2 with staleCache := st.2 }⟩
    | none => networkPhase eng1 identityValue policyPath decision ctx now authResult

/-- C1: whenever a breaker is configured, the fresh cache does not answer,
and `should_allow_request()` answers false, `check_decision` returns
exactly the breaker's fallback decision computed from the stale-cache value
for the (identity, policy path, decision, context) key, attempts no network
call (no client of any kind is used), and invokes the `on_fallback`
callback exactly when one is configured. -/
theorem claimC1_breaker_open_fallback :
    ∀ (eng : Engine) (ident : Identity) (pp dec : String) (ctx : Option Ctx) (now : ℚ)
      (auth : Except Exc (List (String × Bool))) (cbc : CBConfig) (cbs : CBState),
      eng.circuitBreaker = some (cbc, cbs) →
      freshLookup eng (identityValueOf ident) pp dec ctx now = none →
      (shouldAllowRequest cbc cbs now).1 = false →
      (checkDecision eng ident pp dec ctx now auth).result =
        .ok (getFallbackDecision cbc pp (ctx.getD [])
          (staleLookup cbc eng.staleCache (identityValueOf ident) pp dec ctx now).1
          (.connectionError "Circuit breaker open")) ∧
      (checkDecision eng ident pp dec ctx now auth).networkCalled = false ∧
      (checkDecision eng ident pp dec ctx now auth).clientSource = none ∧
      (checkDecision eng ident pp dec ctx now auth).onFallbackInvoked =
        cbc.onFallbackConfigured := by
  intro eng ident pp dec ctx now auth cbc cbs hcb hfresh hgate
  have hbody : checkDecision eng ident pp dec ctx now auth =
      (let st := staleLookup cbc eng.staleCache (identityValueOf ident) pp dec ctx now
       let fb := getFallbackDecision cbc pp (ctx.getD []) st.1
         (.connectionError "Circuit breaker open")
       ⟨.ok fb, false, none, cbc.onFallbackConfigured,
         { eng with
             decisionCache := freshEvolve eng (identityValueOf ident) pp dec ctx now,
             circuitBreaker := some (cbc, (shouldAllowRequest cbc cbs now).2),
             staleCache := st.2 }⟩) := by
    unfold checkDecision
    dsimp only
    rw [hfresh, hcb]
    simp only [hgate, Bool.false_eq_true, if_neg, reduceIte]
  rw [hbody]
  exact ⟨rfl, rfl, rfl, rfl⟩

/-- Witness for C1 at a concrete input: default breaker config, circuit
OPEN (no `open_since`, so the gate refuses), empty stale cache — the call
returns the `cache_then_deny` fallback `false` with no network call. -/
theorem claimC1_breaker_open_fallback_witness :
    (checkDecision { circuitBreaker := some ({}, { state := .opened }) } ⟨"SUB", some "alice"⟩ "app.GET.docs" "allowed" none 10 (.ok [])).networkCalled = false ∧
    (checkDecision { circuitBreaker := some ({}, { state := .opened }) } ⟨"SUB", some "alice"⟩ "app.GET.docs" "allowed" none 10 (.ok [])).clientSource = none ∧
    (checkDecision { circuitBreaker := some ({}, { state := .opened }) } ⟨"SUB", some "alice"⟩ "app.GET.docs" "allowed" none 10 (.ok [])).result = .ok false := by
  have h := claimC1_breaker_open_fallback { circuitBreaker := some ({}, { state := .opened }) }
    ⟨"SUB", some "alice"⟩ "app.GET.docs" "allowed" none 10 (.ok [])
    {} { state := .opened } rfl rfl rfl
  refine ⟨h.2.1, h.2.2.1, ?_⟩
  rw [h.1]
  rfl

theorem networkPhase_perCall :
    ∀ (eng : Engine) (idv pp dec : String) (ctx : Option Ctx) (now : ℚ)
      (auth : Except Exc (List (String × Bool))),
      (networkPhase eng idv pp dec ctx now auth).clientSource = some .perCall := by
  intro eng idv pp dec ctx now auth
  unfold networkPhase
  cases auth with
  | ok d => rfl
  | error e =>
    cases hcb : eng.circuitBreaker with
    | none => rfl
    | some p =>
      cases p with
      | mk cbc cbs =>
        by_cases hf : isFailureException cbc e = true
        · simp [hf]
        · simp [hf]

/-- C6 evidence: `check_decision` NEVER acquires the client from the
connection pool — every outcome that reaches the network phase carries a
per-call client (`create_client`), including, concretely, a call on an
engine whose pool is configured. -/
theorem claimC6_pool_never_used :
    (∀ (eng : Engine) (ident : Identity) (pp dec : String) (ctx : Option Ctx) (now : ℚ)
      (auth : Except Exc (List (String × Bool))),
      (checkDecision eng ident pp dec ctx now auth).clientSource ≠ some .pooled) ∧
    (checkDecision { poolConfigured := true } ⟨"SUB", some "alice"⟩ "app.GET.docs" "allowed" none 0 (.ok [("allowed", true)])).clientSource = some .perCall ∧
    (checkDecision { poolConfigured := true } ⟨"SUB", some "alice"⟩ "app.GET.docs" "allowed" none 0 (.ok [("allowed", true)])).networkCalled = true ∧
    (checkDecision { poolConfigured := true } ⟨"SUB", some "alice"⟩ "app.GET.docs" "allowed" none 0 (.ok [("allowed", true)])).result = .ok true := by
  refine ⟨?_, rfl, rfl, rfl⟩
  intro eng ident pp dec ctx now auth
  unfold checkDecision
  dsimp only
  cases hf : freshLookup eng (identityValueOf ident) pp dec ctx now with
  | some v => simp
  | none =>
    cases hcb : eng.circuitBreaker with
    | none => rw [networkPhase_perCall]; simp
    | some p =>
      cases p with
      | mk cbc cbs =>
        by_cases hg : (shouldAllowRequest cbc cbs now).1 = true
        · simp only [hg, if_pos, reduceIte]
          rw [networkPhase_perCall]
          simp
        · simp only [hg, Bool.false_eq_true, if_neg, reduceIte]
          simp

/-! ## Hierarchy checks (`dependencies.py`, `TopazConfig.check_hierarchy`)

`check_relation` is abstracted by a deterministic oracle from
(object type, object id, relation) to a boolean — the claim is about how
`check_hierarchy` combines individual results, and `asyncio.gather`
preserves input order regardless of execution order. -/
structure Req where
  pathParams : Ctx := []
  headers : Ctx := []
  queryParams : Ctx := []

inductive IdSource where
  | str (s : String)
  | func (f : Req → String)

def resolveIdSource (src : IdSource) (req : Req) : String :=
  match src with
  | .func f => f req
  | .str s =>
    if s.startsWith "header:" then (dictGet (s.drop 7) req.headers).getD ""
    else if s.startsWith "query:" then (dictGet (s.drop 6) req.queryParams).getD ""
    else if s.startsWith "static:" then s.drop 7
    else (dictGet s req.pathParams).getD ""

inductive HMode where
  | all
  | any
  | firstMatch
deriving DecidableEq, Repr

structure HierarchyResult where
  allowed : Bool
  checks : List (String × String × String × Bool)
  deniedAt : Option String := none
  firstMatch : Option String := none
deriving DecidableEq, Repr

abbrev HCheck := String × IdSource × String

def checkPasses (oracle : String → String → String → Bool) (req : Req) (c : HCheck) : Bool :=
  oracle c.1 (resolveIdSource c.2.1 req) c.2.2

def evalCheck (oracle : String → String → String → Bool) (req : Req) (c : HCheck) :
    String × String × String × Bool :=
  (c.1, resolveIdSource c.2.1 req, c.2.2, checkPasses oracle req c)

def seqGo (oracle : String → String → String → Bool) (req : Req) (mode : HMode) :
    List HCheck → List (String × String × String × Bool) → HierarchyResult
  | [], acc =>
    match mode with
    | .all => ⟨true, acc, none, none⟩
    | _ => ⟨false, acc, none, none⟩
  | c :: rest, acc =>
    let e := evalCheck oracle req c
    let acc2 := acc ++ [e]
    if mode = .all ∧ e.2.2.2 = false then ⟨false, acc2, some c.1, none⟩
    else if mode = .any ∧ e.2.2.2 = true then ⟨true, acc2, none, none⟩
    else if mode = .firstMatch ∧ e.2.2.2 = true then ⟨true, acc2, none, some c.2.2⟩
    else seqGo oracle req mode rest acc2

def checkHierarchySequential (oracle : String → String → String → Bool) (req : Req)
    (checks : List HCheck) (mode : HMode) : HierarchyResult :=
  seqGo oracle req mode checks []

def checkHierarchyConcurrent (oracle : String → String → String → Bool) (req : Req)
    (checks : List HCheck) (mode : HMode) : HierarchyResult :=
  let results := checks.map (evalCheck oracle req)
  match mode with
  | .all =>
    match results.find? (fun r => r.2.2.2 = false) with
    | some r => ⟨false, results, some r.1, none⟩
    | none => ⟨true, results, none, none⟩
  | _ => ⟨results.any (fun r => r.2.2.2), results, none, none⟩

def checkHierarchy (oracle : String → String → String → Bool) (req : Req)
    (checks : List HCheck) (mode : HMode) (optimize : Bool) : HierarchyResult :=
  if mode = .firstMatch ∨ optimize = false then
    checkHierarchySequential oracle req checks mode
  else
    checkHierarchyConcurrent oracle req checks mode

def fmTake (oracle : String → String → String → Bool) (req : Req) :
    List HCheck → List (String × String × String × Bool)
  | [] => []
  | c :: rest =>
    let e := evalCheck oracle req c
    if e.2.2.2 then [e] else e :: fmTake oracle req rest

theorem seq_all_spec (oracle : String → String → String → Bool) (req : Req) :
    ∀ (checks : List HCheck) (acc : List (String × String × String × Bool)),
      (seqGo oracle req .all checks acc).allowed = checks.all (checkPasses oracle req) ∧
      (seqGo oracle req .all checks acc).deniedAt =
        (checks.find? (fun c => checkPasses oracle req c = false)).map (fun c => c.1) := by
  intro checks
  induction checks with
  | nil => intro acc; simp [seqGo]
  | cons c rest ih =>
    intro acc
    by_cases hp : checkPasses oracle req c = true
    · have hp2 : ¬ ((evalCheck oracle req c).2.2.2 = false) := by
        simp [evalCheck, hp]
      simp [seqGo, evalCheck, hp2, List.find?, hp, ih]
    · have hp2 : (evalCheck oracle req c).2.2.2 = false := by
        simp [evalCheck]
        exact Bool.not_eq_true _ |>.mp hp
      simp [seqGo, evalCheck, hp2, List.find?, hp]

theorem seq_any_spec (oracle : String → String → String → Bool) (req : Req) :
    ∀ (checks : List HCheck) (acc : List (String × String × String × Bool)),
      (seqGo oracle req .any checks acc).allowed = checks.any (checkPasses oracle req) := by
  intro checks
  induction checks with
  | nil => intro acc; simp [seqGo]
  | cons c rest ih =>
    intro acc
    by_cases hp : checkPasses oracle req c = true
    · simp [seqGo, evalCheck, hp]
    · have hp2 : (evalCheck oracle req c).2.2.2 = false := by
        simp [evalCheck]
        exact Bool.not_eq_true _ |>.mp hp
      simp [seqGo, evalCheck, hp2, hp, ih]

theorem seq_fm_spec (oracle : String → String → String → Bool) (req : Req) :
    ∀ (checks : List HCheck) (acc : List (String × String × String × Bool)),
      (seqGo oracle req .firstMatch checks acc).allowed = checks.any (checkPasses oracle req) ∧
      (seqGo oracle req .firstMatch checks acc).firstMatch =
        (checks.find? (fun c => checkPasses oracle req c)).map (fun c => c.2.2) ∧
      (seqGo oracle req .firstMatch checks acc).checks = acc ++ fmTake oracle req checks := by
  intro checks
  induction checks with
  | nil => intro acc; simp [seqGo, fmTake]
  | cons c rest ih =>
    intro acc
    by_cases hp : checkPasses oracle req c = true
    · have hp2 : (evalCheck oracle req c).2.2.2 = true := by simp [evalCheck, hp]
      simp [seqGo, evalCheck, hp2, List.find?, hp, fmTake]
    · have hfalse : checkPasses oracle req c = false := Bool.not_eq_true _ |>.mp hp
      have hp2 : (evalCheck oracle req c).2.2.2 = false := by simp [evalCheck, hfalse]
      have hthis := ih (acc ++ [evalCheck oracle req c])
      simp only [evalCheck, hfalse] at hthis
      simp [seqGo, evalCheck, hp2, List.find?, hp, fmTake, hfalse, hthis]



theorem conc_all_spec (oracle : String → String → String → Bool) (req : Req) :
    ∀ (checks : List HCheck),
      (checkHierarchyConcurrent oracle req checks .all).allowed =
        checks.all (checkPasses oracle req) ∧
      (checkHierarchyConcurrent oracle req checks .all).deniedAt =
        (checks.find? (fun c => checkPasses oracle req c = false)).map (fun c => c.1) := by
  intro checks
  induction checks with
  | nil => simp [checkHierarchyConcurrent]
  | cons c rest ih =>
    by_cases hp : checkPasses oracle req c = true
    · have hpred : ((evalCheck oracle req c).2.2.2 = false) = False := by
        simp [evalCheck, hp]
      unfold checkHierarchyConcurrent at ih ⊢
      simp only [List.map_cons, List.find?_cons] at ih ⊢
      simp only [hpred, decide_False, List.all_cons, hp, Bool.true_and, List.find?] at ih ⊢
      simp only [evalCheck, hp, decide_False, List.find?]
      cases hfind : List.find? (fun r => r.2.2.2 = false) (rest.map (evalCheck oracle req)) with
      | none =>
        rw [hfind] at ih
        simp at ih ⊢
        exact ih
      | some r =>
        rw [hfind] at ih
        simp at ih ⊢
        exact ih
    · have hfalse : checkPasses oracle req c = false := Bool.not_eq_true _ |>.mp hp
      have hpred : ((evalCheck oracle req c).2.2.2 = false) = True := by
        simp [evalCheck, hfalse]
      unfold checkHierarchyConcurrent
      simp only [List.map_cons, List.find?_cons]
      simp [evalCheck, hfalse, List.all_cons, List.find?]

theorem conc_any_spec (oracle : String → String → String → Bool) (req : Req) :
    ∀ (checks : List HCheck),
      (checkHierarchyConcurrent oracle req checks .any).allowed =
        checks.any (checkPasses oracle req) := by
  intro checks
  induction checks with
  | nil => simp [checkHierarchyConcurrent]
  | cons c rest ih =>
    unfold checkHierarchyConcurrent at ih ⊢
    simp only [List.map_cons, List.any_cons] at ih ⊢
    simp [evalCheck, ih]



/-- C7: `check_hierarchy` mode semantics — mode `all` allows iff every
check passes and, on failure, `denied_at` is the object type of the first
failing check in input-list order for both the sequential and the
concurrent (optimize) variants; mode `any` allows iff some check passes in
both variants; mode `first_match` dispatches to the sequential runner
regardless of the `optimize` flag, short-circuits at the first passing
check (its `checks` list is exactly the evaluated prefix up to and
including that check), and records that check's relation in
`first_match`. -/
theorem claimC7_hierarchy_modes :
    ∀ (oracle : String → String → String → Bool) (req : Req)
      (checks : List HCheck) (optimize : Bool),
      ((checkHierarchy oracle req checks .all optimize).allowed =
        checks.all (checkPasses oracle req)) ∧
      ((checkHierarchy oracle req checks .all optimize).deniedAt =
        (checks.find? (fun c => checkPasses oracle req c = false)).map (fun c => c.1)) ∧
      ((checkHierarchy oracle req checks .any optimize).allowed =
        checks.any (checkPasses oracle req)) ∧
      (checkHierarchy oracle req checks .firstMatch optimize =
        checkHierarchySequential oracle req checks .firstMatch) ∧
      ((checkHierarchy oracle req checks .firstMatch optimize).firstMatch =
        (checks.find? (fun c => checkPasses oracle req c)).map (fun c => c.2.2)) ∧
      ((checkHierarchy oracle req checks .firstMatch optimize).allowed =
        checks.any (checkPasses oracle req)) ∧
      ((checkHierarchy oracle req checks .firstMatch optimize).checks =
        fmTake oracle req checks) := by
  intro oracle req checks optimize
  have hfm : checkHierarchy oracle req checks .firstMatch optimize =
      checkHierarchySequential oracle req checks .firstMatch := by
    unfold checkHierarchy
    simp
  have hseqfm := seq_fm_spec oracle req checks []
  refine ⟨?_, ?_, ?_, hfm, ?_, ?_, ?_⟩
  · cases optimize with
    | false =>
      unfold checkHierarchy
      simp [checkHierarchySequential, (seq_all_spec oracle req checks []).1]
    | true =>
      unfold checkHierarchy
      simp [(conc_all_spec oracle req checks).1]
  · cases optimize with
    | false =>
      unfold checkHierarchy
      simp [checkHierarchySequential, (seq_all_spec oracle req checks []).2]
    | true =>
      unfold checkHierarchy
      simp [(conc_all_spec oracle req checks).2]
  · cases optimize with
    | false =>
      unfold checkHierarchy
      simp [checkHierarchySequential, seq_any_spec oracle req checks []]
    | true =>
      unfold checkHierarchy
      simp [conc_any_spec oracle req checks]
  · rw [hfm]
    simpa [checkHierarchySequential] using hseqfm.2.1
  · rw [hfm]
    simpa [checkHierarchySequential] using hseqfm.1
  · rw [hfm]
    simpa [checkHierarchySequential] using hseqfm.2.2

/-! ## Global middleware (`middleware.py`, `TopazMiddleware.__call__`)

The ASGI call is modelled on a request record; the `check_decision` call
is an oracle argument (its boolean result or the exception it raised);
exclusion regexes are modelled as predicates.  The code wraps the check in
`try/except` and treats any exception as `allowed = False`. -/
structure Response where
  status : Nat
deriving DecidableEq, Repr

structure RouteInfo where
  template : String
  pathParams : Ctx := []
  skipMarker : Bool := false
  skipDependency : Bool := false

structure MwRequest where
  scopeType : String := "http"
  method : String := "GET"
  path : String := "/"
  route : Option RouteInfo := none
  identity : Option Identity := none

structure MwConfig where
  policyPathRoot : String
  excludePaths : List (String → Bool) := []
  excludeMethods : List String := ["OPTIONS", "HEAD"]
  onMissingIdentity : String := "deny"
  onDenied : Option (String → Response) := none

def isExcluded (cfg : MwConfig) (req : MwRequest) : Bool :=
  decide (req.method ∈ cfg.excludeMethods) ||
  cfg.excludePaths.any (fun p => p req.path) ||
  (match req.route with
   | some rt => rt.skipMarker || rt.skipDependency
   | none => false)

def identityMissing (req : MwRequest) : Bool :=
  match req.identity with
  | none => true
  | some i => identityValueOf i = ""

def denialResponse (cfg : MwConfig) (policyPath : String) : Response :=
  match cfg.onDenied with
  | some f => f policyPath
  | none => ⟨403⟩

inductive MwResult where
  | passApp (pathParams : Ctx)
  | respond (r : Response)

def middlewareCall (cfg : MwConfig) (req : MwRequest) (checkResult : Except Exc Bool) :
    MwResult :=
  if req.scopeType ≠ "http" then .passApp []
  else if isExcluded cfg req then .passApp []
  else
    match req.route with
    | none => .passApp []
    | some rt =>
      let policyPath := resolvePolicyPath cfg.policyPathRoot req.method rt.template
      if identityMissing req ∧ cfg.onMissingIdentity = "deny" then .respond ⟨401⟩
      else
        let allowed := match checkResult with | .ok b => b | .error _ => false
        if allowed = false then .respond (denialResponse cfg policyPath)
        else .passApp rt.pathParams

/-- C4: for every non-excluded matched request whose authorization check
raises (any exception, with or without a breaker — the oracle argument is
whatever `check_decision` did), the middleware fails closed: the request
never reaches the downstream handler and the response is the denial
branch — exactly the generic 403 whenever no custom `on_denied` callback
is configured (and hence never a 500). -/
theorem claimC4_middleware_fail_closed :
    ∀ (cfg : MwConfig) (req : MwRequest) (rt : RouteInfo) (e : Exc),
      req.scopeType = "http" →
      isExcluded cfg req = false →
      req.route = some rt →
      (identityMissing req = true → cfg.onMissingIdentity ≠ "deny") →
      (∀ params, middlewareCall cfg req (.error e) ≠ .passApp params) ∧
      middlewareCall cfg req (.error e) =
        .respond (denialResponse cfg (resolvePolicyPath cfg.policyPathRoot req.method rt.template)) ∧
      (cfg.onDenied = none →
        middlewareCall cfg req (.error e) = .respond ⟨403⟩) := by
  intro cfg req rt e hscope hexc hroute hident
  have hbody : middlewareCall cfg req (.error e) =
      .respond (denialResponse cfg (resolvePolicyPath cfg.policyPathRoot req.method rt.template)) := by
    unfold middlewareCall
    rw [hscope]
    simp only [hexc, hroute]
    have hcond : ¬ (identityMissing req ∧ cfg.onMissingIdentity = "deny") := by
      intro ⟨h1, h2⟩
      exact hident h1 h2
    simp [hcond]
  refine ⟨?_, hbody, ?_⟩
  · intro params
    rw [hbody]
    intro h
    cases h
  · intro hod
    rw [hbody]
    simp [denialResponse, hod]

/-- Witness for C4 at a concrete input: a transport error on
`GET /documents/42` under the default configuration yields exactly a 403. -/
theorem claimC4_middleware_fail_closed_witness :
    middlewareCall { policyPathRoot := "webapp" }
      { route := some { template := "/documents/{id}", pathParams := [("id", "42")] },
        identity := some ⟨"SUB", some "alice"⟩ }
      (.error (.connectionError "connection refused")) = .respond ⟨403⟩ ∧
    (403 : Nat) ≠ 500 := by
  constructor
  · exact (claimC4_middleware_fail_closed { policyPathRoot := "webapp" }
      { route := some { template := "/documents/{id}", pathParams := [("id", "42")] },
        identity := some ⟨"SUB", some "alice"⟩ }
      { template := "/documents/{id}", pathParams := [("id", "42")] }
      (.connectionError "connection refused")
      rfl (by decide) rfl (by decide)).2.2 rfl
  · decide

/-! ## Connection pool (`connection_pool.py`)

Connections are modelled by numeric ids allocated from a counter; the
idle queue is a list (FIFO), the busy set and the live set are finsets.
The counting semaphore holds `max_connections - |busy|` permits (acquire
takes one before popping or creating, release always returns one, a
failed creation returns it), so in this sequential model acquire times out
exactly when the busy set is full.  `healthy` is a flag set by the caller
before release, so it is a release argument.  The pool starts lazily
initialized (the default `eager_init = False`): the op alphabet of the
claim is acquire / release / close. -/
structure PoolConfig where
  minConnections : Nat := 2
  maxConnections : Nat := 10
deriving DecidableEq, Repr

structure PoolState where
  conns : Finset Nat := ∅
  idle : List Nat := []
  busy : Finset Nat := ∅
  closedFlag : Bool := false
  nextId : Nat := 0
deriving DecidableEq

inductive PoolErr where
  | closedErr
  | timeoutErr
deriving DecidableEq, Repr

def poolAcquire (cfg : PoolConfig) (s : PoolState) : Except PoolErr (Nat × PoolState) :=
  if s.closedFlag then .error .closedErr
  else if cfg.maxConnections ≤ s.busy.card then .error .timeoutErr
  else
    match s.idle with
    | c :: rest => .ok (c, { s with idle := rest, busy := insert c s.busy })
    | [] =>
      .ok (s.nextId,
        { s with conns := insert s.nextId s.conns, busy := insert s.nextId s.busy,
                 nextId := s.nextId + 1 })

def poolRelease (s : PoolState) (c : Nat) (healthy : Bool) : PoolState :=
  if c ∉ s.busy then s
  else
    let s1 := { s with busy := s.busy.erase c }
    if healthy ∧ s.closedFlag = false then { s1 with idle := s1.idle ++ [c] }
    else { s1 with conns := s1.conns.erase c }

def poolClose (s : PoolState) : PoolState :=
  { s with closedFlag := true, idle := [], conns := ∅, busy := ∅ }

inductive PoolOp where
  | acquireOp
  | releaseOp (c : Nat) (healthy : Bool)
  | closeOp
deriving DecidableEq, Repr

def poolStep (cfg : PoolConfig) (s : PoolState) : PoolOp → PoolState
  | .acquireOp =>
    match poolAcquire cfg s with
    | .ok (_, s2) => s2
    | .error _ => s
  | .releaseOp c h => poolRelease s c h
  | .closeOp => poolClose s

def poolRun (cfg : PoolConfig) (s : PoolState) : List PoolOp → PoolState
  | [] => s
  | op :: rest => poolRun cfg (poolStep cfg s op) rest

structure PoolInv (cfg : PoolConfig) (s : PoolState) : Prop where
  idleNodup : s.idle.Nodup
  idleBusyDisj : ∀ c ∈ s.idle, c ∉ s.busy
  connsEq : s.conns = s.busy ∪ s.idle.toFinset
  cardBound : s.conns.card ≤ cfg.maxConnections
  idsLt : ∀ c ∈ s.conns, c < s.nextId
  closedEmpty : s.closedFlag = true → s.busy = ∅

theorem poolInv_init (cfg : PoolConfig) : PoolInv cfg {} := by
  constructor <;> simp

theorem poolInv_acquire {cfg : PoolConfig} {s : PoolState} {c : Nat} {s2 : PoolState}
    (h : PoolInv cfg s) (ha : poolAcquire cfg s = .ok (c, s2)) : PoolInv cfg s2 := by
  unfold poolAcquire at ha
  by_cases hcl : s.closedFlag = true
  · simp [hcl] at ha
  · simp only [hcl, Bool.false_eq_true, if_neg, reduceIte] at ha
    by_cases hfull : cfg.maxConnections ≤ s.busy.card
    · rw [if_pos hfull] at ha
      cases ha
    · rw [if_neg hfull] at ha
      cases hidle : s.idle with
      | cons c0 rest =>
        rw [hidle] at ha
        simp only [Except.ok.injEq, Prod.mk.injEq] at ha
        obtain ⟨hc, hs2⟩ := ha
        subst hc
        subst hs2
        have hnodup := h.idleNodup
        rw [hidle] at hnodup
        have hn1 : c0 ∉ rest := (List.nodup_cons.mp hnodup).1
        have hn2 : rest.Nodup := (List.nodup_cons.mp hnodup).2
        refine ⟨?_, ?_, ?_, ?_, ?_, ?_⟩
        · dsimp only
          exact hn2
        · dsimp only
          intro x hx
          simp only [Finset.mem_insert, not_or]
          refine ⟨fun hxc => hn1 (hxc ▸ hx), ?_⟩
          refine h.idleBusyDisj x ?_
          rw [hidle]
          exact List.mem_cons_of_mem c0 hx
        · dsimp only
          rw [h.connsEq, hidle]
          ext y
          simp [List.toFinset_cons]
        · dsimp only
          exact h.cardBound
        · dsimp only
          exact h.idsLt
        · intro hfl
          simp at hfl
      | nil =>
        rw [hidle] at ha
        simp only [Except.ok.injEq, Prod.mk.injEq] at ha
        obtain ⟨hc, hs2⟩ := ha
        subst hc
        subst hs2
        have hconns : s.conns = s.busy := by
          have h2 := h.connsEq
          rw [hidle] at h2
          simpa using h2
        refine ⟨?_, ?_, ?_, ?_, ?_, ?_⟩
        · dsimp only
          simp
        · dsimp only
          intro x hx
          simp at hx
        · dsimp only
          simp [hconns]
        · dsimp only
          have h1 := Finset.card_insert_le s.nextId s.conns
          have h2 : s.conns.card = s.busy.card := by rw [hconns]
          omega
        · dsimp only
          intro x hx
          rcases Finset.mem_insert.mp hx with hx1 | hx2
          · simp [hx1]
          · exact Nat.lt_trans (h.idsLt x hx2) (Nat.lt_succ_self _)
        · intro hfl
          simp at hfl



theorem poolInv_release {cfg : PoolConfig} {s : PoolState} (h : PoolInv cfg s)
    (c : Nat) (healthy : Bool) : PoolInv cfg (poolRelease s c healthy) := by
  unfold poolRelease
  by_cases hb : c ∈ s.busy
  · simp only [hb, not_true_eq_false, if_neg, reduceIte]
    have hcni : c ∉ s.idle := fun hci => h.idleBusyDisj c hci hb
    by_cases hh : healthy ∧ s.closedFlag = false
    · rw [if_pos hh]
      refine ⟨?_, ?_, ?_, ?_, ?_, ?_⟩
      · dsimp only
        simp [List.nodup_append, h.idleNodup, hcni]
      · dsimp only
        intro x hx
        rcases List.mem_append.mp hx with hx1 | hx2
        · simp only [Finset.mem_erase, not_and]
          intro _
          exact h.idleBusyDisj x hx1
        · simp at hx2
          subst hx2
          simp
      · dsimp only
        rw [h.connsEq]
        ext y
        by_cases hyc : y = c
        · simp [hyc, hb]
        · simp [hyc, Finset.mem_erase, List.toFinset_append]
      · dsimp only
        exact h.cardBound
      · dsimp only
        exact h.idsLt
      · dsimp only
        intro hfl
        rw [hfl] at hh
        simp at hh
    · rw [if_neg hh]
      refine ⟨?_, ?_, ?_, ?_, ?_, ?_⟩
      · dsimp only
        exact h.idleNodup
      · dsimp only
        intro x hx
        simp only [Finset.mem_erase, not_and]
        intro _
        exact h.idleBusyDisj x hx
      · dsimp only
        rw [h.connsEq]
        ext y
        by_cases hyc : y = c
        · simp [hyc, hcni]
        · simp [hyc, Finset.mem_erase]
      · dsimp only
        exact Nat.le_trans (Finset.card_le_card (Finset.erase_subset _ _)) h.cardBound
      · dsimp only
        intro x hx
        exact h.idsLt x (Finset.mem_of_mem_erase hx)
      · dsimp only
        intro hfl
        exact absurd (h.closedEmpty hfl ▸ hb) (Finset.not_mem_empty c)
  · simp only [hb, not_false_eq_true, if_pos, reduceIte]
    exact h

theorem poolInv_close {cfg : PoolConfig} {s : PoolState} (_ : PoolInv cfg s) :
    PoolInv cfg (poolClose s) := by
  unfold poolClose
  refine ⟨?_, ?_, ?_, ?_, ?_, ?_⟩ <;> simp

theorem poolInv_step {cfg : PoolConfig} {s : PoolState} (h : PoolInv cfg s)
    (op : PoolOp) : PoolInv cfg (poolStep cfg s op) := by
  cases op with
  | acquireOp =>
    unfold poolStep
    cases hacq : poolAcquire cfg s with
    | ok p =>
      cases p with
      | mk c s2 => exact poolInv_acquire h hacq
    | error e => exact h
  | releaseOp c healthy => exact poolInv_release h c healthy
  | closeOp => exact poolInv_close h

theorem poolInv_run {cfg : PoolConfig} (ops : List PoolOp) :
    ∀ {s : PoolState}, PoolInv cfg s → PoolInv cfg (poolRun cfg s ops) := by
  induction ops with
  | nil => intro s h; exact h
  | cons op rest ih =>
    intro s h
    exact ih (poolInv_step h op)

theorem poolAcquire_not_busy {cfg : PoolConfig} {s : PoolState} {c : Nat} {s2 : PoolState}
    (h : PoolInv cfg s) (ha : poolAcquire cfg s = .ok (c, s2)) : c ∉ s.busy := by
  unfold poolAcquire at ha
  by_cases hcl : s.closedFlag = true
  · simp [hcl] at ha
  · simp only [hcl, Bool.false_eq_true, if_neg, reduceIte] at ha
    by_cases hfull : cfg.maxConnections ≤ s.busy.card
    · rw [if_pos hfull] at ha
      cases ha
    · rw [if_neg hfull] at ha
      cases hidle : s.idle with
      | cons c0 rest =>
        rw [hidle] at ha
        simp only [Except.ok.injEq, Prod.mk.injEq] at ha
        obtain ⟨hc, _⟩ := ha
        subst hc
        exact h.idleBusyDisj c0 (by rw [hidle]; exact List.mem_cons_self _ _)
      | nil =>
        rw [hidle] at ha
        simp only [Except.ok.injEq, Prod.mk.injEq] at ha
        obtain ⟨hc, _⟩ := ha
        subst hc
        intro hmem
        have : s.nextId ∈ s.conns := by
          rw [h.connsEq]
          exact Finset.mem_union_left _ hmem
        exact absurd (h.idsLt _ this) (Nat.lt_irrefl _)



def poolBanned (c : Nat) (s : PoolState) : Prop :=
  c ∉ s.conns ∧ c < s.nextId

theorem poolBanned_acquire_ne {cfg : PoolConfig} {s : PoolState} {c d : Nat} {s2 : PoolState}
    (h : PoolInv cfg s) (hb : poolBanned c s) (ha : poolAcquire cfg s = .ok (d, s2)) :
    d ≠ c := by
  unfold poolAcquire at ha
  by_cases hcl : s.closedFlag = true
  · simp [hcl] at ha
  · simp only [hcl, Bool.false_eq_true, if_neg, reduceIte] at ha
    by_cases hfull : cfg.maxConnections ≤ s.busy.card
    · rw [if_pos hfull] at ha
      cases ha
    · rw [if_neg hfull] at ha
      cases hidle : s.idle with
      | cons c0 rest =>
        rw [hidle] at ha
        simp only [Except.ok.injEq, Prod.mk.injEq] at ha
        obtain ⟨hc, _⟩ := ha
        subst hc
        intro hdc
        apply hb.1
        rw [← hdc, h.connsEq]
        apply Finset.mem_union_right
        rw [List.mem_toFinset, hidle]
        exact List.mem_cons_self _ _
      | nil =>
        rw [hidle] at ha
        simp only [Except.ok.injEq, Prod.mk.injEq] at ha
        obtain ⟨hc, _⟩ := ha
        subst hc
        intro hdc
        exact absurd (hdc ▸ hb.2) (Nat.lt_irrefl _)

theorem poolBanned_step {cfg : PoolConfig} {s : PoolState} {c : Nat}
    (h : PoolInv cfg s) (hb : poolBanned c s) (op : PoolOp) :
    poolBanned c (poolStep cfg s op) := by
  cases op with
  | acquireOp =>
    unfold poolStep
    cases hacq : poolAcquire cfg s with
    | error e => exact hb
    | ok p =>
      cases p with
      | mk d s2 =>
        unfold poolAcquire at hacq
        by_cases hcl : s.closedFlag = true
        · simp [hcl] at hacq
        · simp only [hcl, Bool.false_eq_true, if_neg, reduceIte] at hacq
          by_cases hfull : cfg.maxConnections ≤ s.busy.card
          · rw [if_pos hfull] at hacq
            cases hacq
          · rw [if_neg hfull] at hacq
            cases hidle : s.idle with
            | cons c0 rest =>
              rw [hidle] at hacq
              simp only [Except.ok.injEq, Prod.mk.injEq] at hacq
              obtain ⟨_, hs2⟩ := hacq
              subst hs2
              exact hb
            | nil =>
              rw [hidle] at hacq
              simp only [Except.ok.injEq, Prod.mk.injEq] at hacq
              obtain ⟨_, hs2⟩ := hacq
              subst hs2
              refine ⟨?_, Nat.lt_trans hb.2 (Nat.lt_succ_self _)⟩
              dsimp only
              intro hmem
              rcases Finset.mem_insert.mp hmem with h1 | h2
              · exact absurd (h1 ▸ hb.2) (Nat.lt_irrefl _)
              · exact hb.1 h2
  | releaseOp d healthy =>
    unfold poolStep poolRelease
    by_cases hbd : d ∈ s.busy
    · simp only [hbd, not_true_eq_false, if_neg, reduceIte]
      by_cases hh : healthy ∧ s.closedFlag = false
      · rw [if_pos hh]
        exact hb
      · rw [if_neg hh]
        refine ⟨?_, hb.2⟩
        dsimp only
        intro hmem
        exact hb.1 (Finset.mem_of_mem_erase hmem)
    · simp only [hbd, not_false_eq_true, if_pos, reduceIte]
      exact hb
  | closeOp =>
    unfold poolStep poolClose
    exact ⟨by simp, hb.2⟩

theorem poolBanned_run {cfg : PoolConfig} (ops : List PoolOp) :
    ∀ {s : PoolState}, PoolInv cfg s → poolBanned c s →
      poolBanned c (poolRun cfg s ops) := by
  induction ops with
  | nil => intro s _ hb; exact hb
  | cons op rest ih =>
    intro s h hb
    exact ih (poolInv_step h op) (poolBanned_step h hb op)

theorem poolClosed_step {cfg : PoolConfig} {s : PoolState} (h : s.closedFlag = true)
    (op : PoolOp) : (poolStep cfg s op).closedFlag = true := by
  cases op with
  | acquireOp =>
    unfold poolStep
    cases hacq : poolAcquire cfg s with
    | error e => exact h
    | ok p =>
      unfold poolAcquire at hacq
      rw [h] at hacq
      simp at hacq
  | releaseOp d healthy =>
    unfold poolStep poolRelease
    by_cases hbd : d ∈ s.busy
    · simp only [hbd, not_true_eq_false, if_neg, reduceIte]
      by_cases hh : healthy ∧ s.closedFlag = false
      · rw [if_pos hh]
        exact h
      · rw [if_neg hh]
        exact h
    · simp only [hbd, not_false_eq_true, if_pos, reduceIte]
      exact h
  | closeOp => rfl

theorem poolClosed_run {cfg : PoolConfig} (ops : List PoolOp) :
    ∀ {s : PoolState}, s.closedFlag = true →
      (poolRun cfg s ops).closedFlag = true := by
  induction ops with
  | nil => intro s h; exact h
  | cons op rest ih =>
    intro s h
    exact ih (poolClosed_step h op)



/-- C9: the connection pool invariants over every sequence of
acquire / release / close operations from a freshly configured (lazily
initialized) pool: a successful acquire never returns a connection in the
busy set; the number of live connections never exceeds
`max_connections`; a connection released as unhealthy is never returned by
any future acquire; and after `close()` every acquire fails immediately
with the pool-closed error. -/
theorem claimC9_pool_invariants :
    ∀ (cfg : PoolConfig) (ops : List PoolOp),
      (∀ (c : Nat) (s2 : PoolState),
        poolAcquire cfg (poolRun cfg {} ops) = .ok (c, s2) →
        c ∉ (poolRun cfg {} ops).busy) ∧
      (poolRun cfg {} ops).conns.card ≤ cfg.maxConnections ∧
      (∀ (c : Nat) (ops2 : List PoolOp) (d : Nat) (s3 : PoolState),
        c ∈ (poolRun cfg {} ops).busy →
        poolAcquire cfg (poolRun cfg (poolRelease (poolRun cfg {} ops) c false) ops2) =
          .ok (d, s3) →
        d ≠ c) ∧
      (∀ ops2 : List PoolOp,
        poolAcquire cfg (poolRun cfg (poolClose (poolRun cfg {} ops)) ops2) =
          .error .closedErr) := by
  intro cfg ops
  have hinv : PoolInv cfg (poolRun cfg {} ops) := poolInv_run ops (poolInv_init cfg)
  refine ⟨?_, hinv.cardBound, ?_, ?_⟩
  · intro c s2 hacq
    exact poolAcquire_not_busy hinv hacq
  · intro c ops2 d s3 hcb hacq
    have hrelInv := poolInv_release hinv c false
    have hclt : c < (poolRun cfg {} ops).nextId := by
      apply hinv.idsLt
      rw [hinv.connsEq]
      exact Finset.mem_union_left _ hcb
    have hbanned : poolBanned c (poolRelease (poolRun cfg {} ops) c false) := by
      unfold poolRelease
      simp only [hcb, not_true_eq_false, if_neg, reduceIte]
      rw [if_neg (by simp)]
      exact ⟨Finset.not_mem_erase _ _, hclt⟩
    have hrunBanned := poolBanned_run ops2 hrelInv hbanned
    have hrunInv := poolInv_run ops2 hrelInv
    exact poolBanned_acquire_ne hrunInv hrunBanned hacq
  · intro ops2
    have hcl : (poolRun cfg (poolClose (poolRun cfg {} ops)) ops2).closedFlag = true :=
      poolClosed_run ops2 rfl
    unfold poolAcquire
    rw [hcl]
    rfl

/-- Witness for C9 at concrete inputs (`max_connections = 2`): after one
acquire (returning connection 0), a fresh acquire would return 1 ∉ busy;
the bound holds; connection 0 released unhealthy is not what the next
acquire returns; acquire after close fails. -/
theorem claimC9_pool_invariants_witness :
    1 ∉ (poolRun ⟨2, 2⟩ {} [.acquireOp]).busy ∧
    (poolRun ⟨2, 2⟩ {} [.acquireOp]).conns.card ≤ 2 ∧
    (1 : Nat) ≠ 0 ∧
    poolAcquire ⟨2, 2⟩ (poolRun ⟨2, 2⟩ (poolClose (poolRun ⟨2, 2⟩ {} [.acquireOp])) []) =
      .error .closedErr := by
  have h := claimC9_pool_invariants ⟨2, 2⟩ [.acquireOp]
  refine ⟨?_, h.2.1, ?_, h.2.2.2 []⟩
  · exact h.1 1 ⟨{1, 0}, [], {1, 0}, false, 2⟩ (by rfl)
  · exact h.2.2.1 0 [] 1 ⟨{1}, [], {1}, false, 2⟩ (by decide) (by rfl)

end FastapiTopaz
